import Mathlib

/-!
Shallow embedding of the dependency-graph metrics and split-optimizer core of
the nx-tools repository (apps/project-view/lib/db.ts and
packages/analyze/src/lib/db.ts; the two files contain textually near-identical
copies of the traversal and metrics code, embedded once here).

The sqlite store is modelled as lists of table rows; projects are identified
by their unique name (the numeric id column is a surrogate key in bijection
with the name, so joins through projects.id are modelled as joins on the
name).  JS Sets are modelled as Finset String (only cardinality, membership
and union of the Sets are ever observed by the code).  The while-loops of the
breadth-first traversal and of the hill-climbing optimizer are modelled with
an explicit fuel parameter together with theorems showing the stated fuel is
always sufficient, which is the termination argument.
-/

namespace NxTools

/-- A row of the project_dependencies table: (source_project, target_project),
meaning "source build-depends-on target". -/
abbrev DepEdge := String × String

/-- In-memory model of the sqlite store read by the db clients.
Fields hold the rows of the corresponding tables, restricted to the columns
the embedded queries read. -/
structure Store where
  /-- names from the projects table -/
  projects : List String
  /-- project_files rows: (owning project name, file_path) -/
  projectFiles : List (String × String)
  /-- project_dependencies rows -/
  projectDeps : List DepEdge
  /-- file_dependencies rows: (file_path, depends_on_file) -/
  fileDeps : List (String × Option String)
  /-- git_commits rows: (id, date) -/
  commits : List (Nat × String)
  /-- touched_files rows: (commit_id, file_path) -/
  touchedFiles : List (Nat × String)

/-- Lexicographic order on char lists by codepoint, the order sqlite BINARY
collation induces on the stored text values. -/
def charListLe : List Char → List Char → Bool
  | [], _ => true
  | _ :: _, [] => false
  | a :: as, b :: bs =>
    if a.toNat < b.toNat then true
    else if b.toNat < a.toNat then false
    else charListLe as bs

/-- String comparison used by ORDER BY. -/
def strLe (a b : String) : Bool := charListLe a.toList b.toList

/-- Insert a commit row into a list sorted by date descending. -/
def insertDateDesc (c : Nat × String) : List (Nat × String) → List (Nat × String)
  | [] => [c]
  | d :: ds => if strLe d.2 c.2 then c :: d :: ds else d :: insertDateDesc c ds

/-- ORDER BY date DESC over the git_commits rows. -/
def sortDateDesc (l : List (Nat × String)) : List (Nat × String) :=
  l.foldr insertDateDesc []

/-- SELECT id FROM git_commits ORDER BY date DESC LIMIT n. -/
def windowIds (st : Store) (n : Nat) : List Nat :=
  ((sortDateDesc st.commits).take n).map Prod.fst

/-- Outcome of one traversal call: the source distinguishes a successful
result from a thrown db error (caught by the surrounding try/catch and turned
into an empty result); outOfFuel is an artifact of the fuel encoding of the
while-loop and is proven unreachable for the fuel used below. -/
inductive ReachRes where
  | ok (r : Finset String)
  | dbError
  | outOfFuel
deriving DecidableEq

/-- One pass over the rows returned for a batch, i.e. the inner for-loop of
the traversal: unvisited row values are added to visited, to the result and
to the queue (acc accumulates the freshly enqueued nodes). -/
def bfsScan : Finset String → Finset String → List String → List String →
    Finset String × Finset String × List String
  | visited, result, acc, [] => (visited, result, acc)
  | visited, result, acc, s :: rows =>
    if s ∈ visited then bfsScan visited result acc rows
    else bfsScan (insert s visited) (insert s result) (acc ++ [s]) rows

/-- The rows returned by the batched edge query.  fwd = false is the
dependents direction (SELECT source_project WHERE target_project IN batch);
fwd = true is the dependencies direction (SELECT target_project WHERE
source_project IN batch). -/
def batchRows (fwd : Bool) (edges : List DepEdge) (batch : List String) : List String :=
  if fwd then (edges.filter (fun e => decide (e.1 ∈ batch))).map Prod.snd
  else (edges.filter (fun e => decide (e.2 ∈ batch))).map Prod.fst

/-- The while-loop of getProjectDependents / getProjectDependencies, with
fuel.  failOn batch = true models the underlying store read throwing for
that batch (the thrown error aborts the whole loop). -/
def reachFuel (fwd : Bool) (edges : List DepEdge) (failOn : List String → Bool) :
    Nat → Finset String → Finset String → List String → ReachRes
  | 0, _, _, _ => .outOfFuel
  | _ + 1, _, result, [] => .ok result
  | fuel + 1, visited, result, q :: qs =>
    let batch := (q :: qs).take 50
    let rest := (q :: qs).drop 50
    if failOn batch then .dbError
    else
      match bfsScan visited result [] (batchRows fwd edges batch) with
      | (v, r, nw) => reachFuel fwd edges failOn fuel v r (rest ++ nw)

/-- The endpoints a traversal in direction fwd can ever enqueue. -/
def endNodes (fwd : Bool) (edges : List DepEdge) : List String :=
  if fwd then edges.map Prod.snd else edges.map Prod.fst

/-- A traversal, seeded with the start node marked visited, wrapped in the
try/catch of the source: a db error yields the empty set.  The fuel
edges.length + 2 is proven sufficient (reachFuel_ne_outOfFuel below), so the
outOfFuel arm is unreachable. -/
def reachSet (fwd : Bool) (edges : List DepEdge) (failOn : List String → Bool)
    (start : String) : Finset String :=
  match reachFuel fwd edges failOn (edges.length + 2) {start} ∅ [start] with
  | .ok r => r
  | _ => ∅

/-- getProjectDependents against a store whose batched reads fail according
to failOn. -/
def getProjectDependentsF (edges : List DepEdge) (failOn : List String → Bool)
    (start : String) : Finset String :=
  reachSet false edges failOn start

/-- getProjectDependents against a healthy store. -/
def getProjectDependents (st : Store) (p : String) : Finset String :=
  getProjectDependentsF st.projectDeps (fun _ => false) p

/-- getProjectDependencies against a store whose batched reads fail according
to failOn. -/
def getProjectDependenciesF (edges : List DepEdge) (failOn : List String → Bool)
    (start : String) : Finset String :=
  reachSet true edges failOn start

/-- getProjectDependencies against a healthy store. -/
def getProjectDependencies (st : Store) (p : String) : Finset String :=
  getProjectDependenciesF st.projectDeps (fun _ => false) p

/-- getFilesTouchedCount: COUNT(DISTINCT tf.commit_id) over touched_files
rows whose commit is in the window and whose path is among filePaths. -/
def getFilesTouchedCount (st : Store) (filePaths : List String) (commitCount : Nat) : Nat :=
  if filePaths.isEmpty then 0
  else (((st.touchedFiles.filter
      (fun tf => decide (tf.1 ∈ windowIds st commitCount ∧ tf.2 ∈ filePaths))).map
        Prod.fst).dedup).length

/-- The per-file entry of getProjectDependencyMapForFiles: the distinct
projects owning some file that has a file_dependencies edge onto f.
The SQL result for a file does not depend on the other files in the IN list,
so the map is modelled as a function of the single file. -/
def directDepProjects (st : Store) (f : String) : Finset String :=
  ((st.projectFiles.filter (fun pf =>
      decide (pf.1 ∈ st.projects) &&
      st.fileDeps.any (fun fd => decide (fd.1 = pf.2 ∧ fd.2 = some f)))).map
        Prod.fst).toFinset

/-- The union of the dependency-map values: the directDependents set built by
getEstimatedLoad. -/
def directDependents (st : Store) (filePaths : List String) : Finset String :=
  filePaths.foldr (fun f acc => directDepProjects st f ∪ acc) ∅

/-- directDependents together with all their transitive dependents, as
collected by getEstimatedLoad. -/
def allDependentsF (st : Store) (failOn : List String → Bool)
    (filePaths : List String) : Finset String :=
  directDependents st filePaths ∪
    (directDependents st filePaths).biUnion
      (fun p => getProjectDependentsF st.projectDeps failOn p)

/-- allDependents against a healthy store. -/
def allDependents (st : Store) (filePaths : List String) : Finset String :=
  allDependentsF st (fun _ => false) filePaths

/-- getEstimatedLoad against a store whose dependency-edge reads fail
according to failOn (the only fallible reads the source catches). -/
def getEstimatedLoadF (st : Store) (failOn : List String → Bool)
    (filePaths : List String) (commitCount : Nat) : Nat :=
  if filePaths.isEmpty then 0
  else if directDependents st filePaths = ∅ then 0
  else getFilesTouchedCount st filePaths commitCount *
    (allDependentsF st failOn filePaths).card

/-- getEstimatedLoad against a healthy store. -/
def getEstimatedLoad (st : Store) (filePaths : List String) (commitCount : Nat) : Nat :=
  getEstimatedLoadF st (fun _ => false) filePaths commitCount

/-! ### Split optimizer -/

/-- The candidate single-file moves of one hill-climbing iteration, in source
order: first every file of groupA moved to groupB, then every file of groupB
moved to groupA. -/
def moveCandidates (gA gB : List String) : List (List String × List String) :=
  gA.map (fun f => (gA.filter (fun g => g != f), gB ++ [f])) ++
  gB.map (fun f => (gA ++ [f], gB.filter (fun g => g != f)))

/-- Sum of the estimated loads of the two groups of a candidate. -/
def pairLoad (st : Store) (n : Nat) (c : List String × List String) : Nat :=
  getEstimatedLoad st c.1 n + getEstimatedLoad st c.2 n

/-- The loop body of the best-improvement scan: a candidate replaces the
tracked (bestDelta, bestMove) only when its delta is strictly smaller. -/
def scanStep (st : Store) (n : Nat) (total : Nat)
    (best : Int × Option (List String × List String))
    (c : List String × List String) : Int × Option (List String × List String) :=
  if (pairLoad st n c : Int) - (total : Int) < best.1
  then ((pairLoad st n c : Int) - (total : Int), some c)
  else best

/-- The best-improvement scan of one hill-climbing iteration: fold over the
candidates keeping (bestDelta, bestMove), starting from (0, none). -/
def pickBest (st : Store) (n : Nat) (total : Nat)
    (l : List (List String × List String)) : Int × Option (List String × List String) :=
  l.foldl (scanStep st n total) ((0 : Int), none)

/-- The while (improved) loop of getSuggestedFileSplit, with fuel.  Each
applied move strictly decreases the total load (a natural number), so fuel
initial total + 1 is sufficient (hillClimbFuel_isSome below). -/
def hillClimbFuel (st : Store) (n : Nat) :
    Nat → List String → List String → Option (List String × List String)
  | 0, _, _ => none
  | fuel + 1, gA, gB =>
    match pickBest st n (pairLoad st n (gA, gB)) (moveCandidates gA gB) with
    | (d, some c) =>
      if d < 0 then hillClimbFuel st n fuel c.1 c.2 else some (gA, gB)
    | (_, none) => some (gA, gB)

/-- The hill climb run to its fixed point (the getD branch is unreachable by
hillClimbFuel_isSome). -/
def hillClimb (st : Store) (n : Nat) (gA gB : List String) : List String × List String :=
  (hillClimbFuel st n (pairLoad st n (gA, gB) + 1) gA gB).getD (gA, gB)

/-- The random initial split of the files that have dependents: coins i
decides the group of the i-th file (true models Math.random() < 0.5, group A). -/
def initSplit (withDeps : List String) (coins : Nat → Bool) :
    List String × List String :=
  ((withDeps.enum.filter (fun p => coins p.1)).map Prod.snd,
   (withDeps.enum.filter (fun p => !coins p.1)).map Prod.snd)

/-- getSuggestedFileSplit.  The ambient randomness of the source is passed
explicitly as coins. -/
def getSuggestedFileSplit (st : Store) (filePaths : List String)
    (commitCount : Nat) (coins : Nat → Bool) : List String × List String :=
  if filePaths.isEmpty then ([], [])
  else
    let filesWithDeps := filePaths.filter (fun f => !(decide (directDepProjects st f = ∅)))
    let filesWithoutDeps := filePaths.filter (fun f => decide (directDepProjects st f = ∅))
    if filesWithDeps.isEmpty then (filePaths, [])
    else
      let p0 := initSplit filesWithDeps coins
      let pr := hillClimb st commitCount p0.1 p0.2
      (pr.1 ++ filesWithoutDeps, pr.2)

/-- The two hill-climb groups of a getSuggestedFileSplit run, before the
files without dependents are appended to the first group. -/
def splitSearchGroups (st : Store) (files : List String) (n : Nat)
    (coins : Nat → Bool) : List String × List String :=
  hillClimb st n
    (initSplit (files.filter (fun f => !(decide (directDepProjects st f = ∅)))) coins).1
    (initSplit (files.filter (fun f => !(decide (directDepProjects st f = ∅)))) coins).2

/-! ### Windowed project metrics -/

/-- One row of the getAllProjectsMetrics result.  dependent_count is an
Option because the empty-window early return of the source builds the result
objects without that key. -/
structure ProjectMetrics where
  name : String
  touched_count : Nat
  dependent_count : Option Nat
  load : Nat
  affected_count : Nat
deriving DecidableEq

/-- Insert a name into a list sorted ascending (ORDER BY name). -/
def insertNameAsc (p : String) : List String → List String
  | [] => [p]
  | q :: qs => if strLe p q then p :: q :: qs else q :: insertNameAsc p qs

/-- SELECT name FROM projects ORDER BY name. -/
def sortNameAsc (l : List String) : List String := l.foldr insertNameAsc []

/-- The rows of the DISTINCT join of getAllProjectsMetrics: distinct
(commit_id, project_name) pairs with the commit in the window and the project
owning a file the commit touched. -/
def touchedRowsOf (st : Store) (n : Nat) : List (Nat × String) :=
  ((st.touchedFiles.filter (fun tf => decide (tf.1 ∈ windowIds st n))).flatMap
    (fun tf => (st.projectFiles.filter (fun pf =>
        decide (pf.2 = tf.2 ∧ pf.1 ∈ st.projects))).map
      (fun pf => (tf.1, pf.1)))).dedup

/-- touchCountMap: one increment per DISTINCT (commit, project) row. -/
def touchCountOf (st : Store) (n : Nat) (p : String) : Nat :=
  ((touchedRowsOf st n).filter (fun r => decide (r.2 = p))).length

/-- The projects whose transitive-dependents sets are resolved: exactly the
projects appearing in the touched rows. -/
def projectsToCompute (st : Store) (n : Nat) : List String :=
  ((touchedRowsOf st n).map Prod.snd).dedup

/-- transitiveDependents.get(name)?.length || 0: the map only has entries for
projects touched in the window, every other project reads as 0. -/
def depCountOf (st : Store) (n : Nat) (p : String) : Nat :=
  if p ∈ projectsToCompute st n then (getProjectDependents st p).card else 0

/-- The touched-project set of one window commit (the touchedByCommit map). -/
def touchedProjectsOfCommit (st : Store) (n : Nat) (cid : Nat) : List String :=
  ((touchedRowsOf st n).filter (fun r => decide (r.1 = cid))).map Prod.snd

/-- The affected set of one commit: its touched projects together with their
transitive dependents, unioned per commit. -/
def affectedSetOfCommit (st : Store) (n : Nat) (cid : Nat) : Finset String :=
  (touchedProjectsOfCommit st n cid).foldr
    (fun t acc => insert t (getProjectDependents st t) ∪ acc) ∅

/-- The keys of the touchedByCommit map. -/
def touchedCommitIds (st : Store) (n : Nat) : List Nat :=
  ((touchedRowsOf st n).map Prod.fst).dedup

/-- The affectedCounts map of getAllProjectsMetrics, read at project p: the
per-commit loop increments p once per commit whose affected set contains p. -/
def affectedCountOf (st : Store) (n : Nat) (p : String) : Nat :=
  (touchedCommitIds st n).foldl
    (fun acc cid => if p ∈ affectedSetOfCommit st n cid then acc + 1 else acc) 0

/-- getAllProjectsMetrics. -/
def getAllProjectsMetrics (st : Store) (commitCount : Nat) : List ProjectMetrics :=
  if (windowIds st commitCount).isEmpty then
    (sortNameAsc st.projects).map (fun p => ⟨p, 0, none, 0, 0⟩)
  else
    (sortNameAsc st.projects).map (fun p =>
      ⟨p, touchCountOf st commitCount p,
        some (depCountOf st commitCount p),
        touchCountOf st commitCount p * depCountOf st commitCount p,
        affectedCountOf st commitCount p⟩)

/-! ### Commit ingestor (syncGitCommits of packages/analyze) -/

/-- A git_commits row. -/
structure GitCommit where
  hash : String
  author : String
  date : String
  message : String
deriving DecidableEq

/-- split(sep) on a character list, with the semantics of the JS split: an
empty input yields one empty field, a trailing separator yields a trailing
empty field. -/
def splitOnChar (sep : Char) : List Char → List (List Char)
  | [] => [[]]
  | c :: rest =>
    if c == sep then [] :: splitOnChar sep rest
    else
      match splitOnChar sep rest with
      | [] => [[c]]
      | h :: t => (c :: h) :: t

/-- trim(): strip leading and trailing whitespace. -/
def trimChars (cs : List Char) : List Char :=
  ((cs.dropWhile Char.isWhitespace).reverse.dropWhile Char.isWhitespace).reverse

/-- Parse a header line hash|author|date|subject; surplus split parts are
dropped, missing ones read as empty (the source destructures the first four
split parts, trimming each). -/
def parseHeader (line : String) : GitCommit :=
  ⟨String.mk (trimChars ((splitOnChar '|' line.toList).getD 0 [])),
   String.mk (trimChars ((splitOnChar '|' line.toList).getD 1 [])),
   String.mk (trimChars ((splitOnChar '|' line.toList).getD 2 [])),
   String.mk (trimChars ((splitOnChar '|' line.toList).getD 3 []))⟩

/-- The change-line test: regex match of a leading A/M/D/R/T followed by at
least one whitespace character. -/
def isChangeLine (line : String) : Bool :=
  match line.toList with
  | c0 :: c1 :: _ => decide (c0 ∈ ['A', 'M', 'D', 'R', 'T']) && c1.isWhitespace
  | _ => false

/-- Parse a change line into (changeType, filePath): charAt(0) and the
trimmed substring from index 2. -/
def parseChange (line : String) : String × String :=
  (String.mk [line.toList.headD ' '], String.mk (trimChars (line.toList.drop 2)))

/-- The accumulator loop of syncGitCommits.  A pending commit is flushed to
saveCommitWithFiles only when both a current commit exists and the buffered
touched-file list is nonempty; the buffer is cleared only on flush. -/
def ingestGo : List String → Option GitCommit → List (String × String) →
    List (GitCommit × List (String × String)) →
    List (GitCommit × List (String × String))
  | [], cur, buf, saved =>
    match cur with
    | some c => if buf.isEmpty then saved else saved ++ [(c, buf)]
    | none => saved
  | line :: rest, cur, buf, saved =>
    if line.toList.contains '|' then
      match cur with
      | some c =>
        if buf.isEmpty then ingestGo rest (some (parseHeader line)) buf saved
        else ingestGo rest (some (parseHeader line)) [] (saved ++ [(c, buf)])
      | none => ingestGo rest (some (parseHeader line)) buf saved
    else if cur.isSome && isChangeLine line then
      ingestGo rest cur (buf ++ [parseChange line]) saved
    else ingestGo rest cur buf saved

/-- The commits flushed by syncGitCommits for a given git log output: split
into lines, drop blank lines, run the accumulator loop. -/
def ingest (output : String) : List (GitCommit × List (String × String)) :=
  ingestGo (((splitOnChar '\n' output.toList).map String.mk).filter
    (fun l => !(trimChars l.toList).isEmpty)) none [] []

/-- The git_commits table after ingestion: INSERT OR IGNORE by hash applied
to each flushed commit in order. -/
def gitCommitsTable (output : String) : List GitCommit :=
  (ingest output).foldl
    (fun acc e => if acc.any (fun c => c.hash == e.1.hash) then acc else acc ++ [e.1]) []

/-! ### Concrete stores used as test inputs -/

/-- A store with two projects where app depends on core, one window commit
touching only a file of app, so core is untouched in the window while having
one transitive dependent. -/
def stC1 : Store :=
  { projects := ["app", "core"]
    projectFiles := [("core", "a.ts"), ("app", "c.ts")]
    projectDeps := [("app", "core")]
    fileDeps := []
    commits := [(1, "2024-01-01")]
    touchedFiles := [(1, "c.ts")] }

/-- A store for the split optimizer: file g.ts has one dependent project (P,
whose file h.ts imports it) but is never touched in the window; file f.ts has
no dependents but is touched by the only window commit. -/
def stSplit : Store :=
  { projects := ["P"]
    projectFiles := [("P", "h.ts")]
    projectDeps := []
    fileDeps := [("h.ts", some "g.ts")]
    commits := [(1, "2024-01-01")]
    touchedFiles := [(1, "f.ts")] }

/-! ## Lemmas about the breadth-first traversal -/

theorem bfsScan_visited_subset (rows : List String) (v r : Finset String)
    (acc : List String) : v ⊆ (bfsScan v r acc rows).1 := by
  induction rows generalizing v r acc with
  | nil => simp [bfsScan]
  | cons s rows ih =>
    rw [bfsScan]
    by_cases h : s ∈ v
    · simpa [h] using ih v r acc
    · simp only [h, if_false]
      exact fun x hx => ih (insert s v) (insert s r) (acc ++ [s])
        (Finset.mem_insert_of_mem hx)

theorem bfsScan_measure (T : Finset String) (rows : List String)
    (v r : Finset String) (acc : List String) (hT : ∀ s ∈ rows, s ∈ T) :
    (T \ (bfsScan v r acc rows).1).card + ((bfsScan v r acc rows).2.2).length ≤
      (T \ v).card + acc.length := by
  induction rows generalizing v r acc with
  | nil => simp [bfsScan]
  | cons s rows ih =>
    rw [bfsScan]
    by_cases h : s ∈ v
    · simpa [h] using ih v r acc (fun x hx => hT x (List.mem_cons_of_mem _ hx))
    · simp only [h, if_false]
      have hsT : s ∈ T := hT s (List.mem_cons_self s rows)
      have hmem : s ∈ T \ v := Finset.mem_sdiff.mpr ⟨hsT, h⟩
      have hins : T \ insert s v = (T \ v).erase s := by
        ext x
        simp only [Finset.mem_sdiff, Finset.mem_erase, Finset.mem_insert]
        tauto
      have hcard : (T \ insert s v).card + 1 = (T \ v).card := by
        rw [hins, Finset.card_erase_of_mem hmem]
        have hpos : 0 < (T \ v).card := Finset.card_pos.mpr ⟨s, hmem⟩
        omega
      have hstep := ih (insert s v) (insert s r) (acc ++ [s])
        (fun x hx => hT x (List.mem_cons_of_mem _ hx))
      simp only [List.length_append, List.length_cons, List.length_nil] at hstep
      omega

theorem bfsScan_start (start : String) (rows : List String)
    (v r : Finset String) (acc : List String) (hv : start ∈ v) (hr : start ∉ r) :
    start ∈ (bfsScan v r acc rows).1 ∧ start ∉ (bfsScan v r acc rows).2.1 := by
  induction rows generalizing v r acc with
  | nil => simpa [bfsScan] using ⟨hv, hr⟩
  | cons s rows ih =>
    rw [bfsScan]
    by_cases h : s ∈ v
    · simpa [h] using ih v r acc hv hr
    · simp only [h, if_false]
      have hne : s ≠ start := fun hc => h (hc ▸ hv)
      exact ih (insert s v) (insert s r) (acc ++ [s])
        (Finset.mem_insert_of_mem hv)
        (fun hc => (Finset.mem_insert.mp hc).elim (fun e => hne e.symm) hr)

theorem batchRows_subset (fwd : Bool) (edges : List DepEdge) (batch : List String) :
    ∀ s ∈ batchRows fwd edges batch, s ∈ endNodes fwd edges := by
  intro s hs
  cases fwd <;>
    simp only [batchRows, endNodes, if_true, if_false, Bool.false_eq_true,
      List.mem_map, List.mem_filter] at hs ⊢ <;>
    obtain ⟨e, ⟨he, _⟩, hes⟩ := hs <;> exact ⟨e, he, hes⟩

theorem reachFuel_ne_outOfFuel (fwd : Bool) (edges : List DepEdge)
    (failOn : List String → Bool) (fuel : Nat) :
    ∀ (v r : Finset String) (q : List String),
      q.length + ((endNodes fwd edges).toFinset \ v).card < fuel →
      reachFuel fwd edges failOn fuel v r q ≠ ReachRes.outOfFuel := by
  induction fuel with
  | zero => intro v r q h; omega
  | succ fuel ih =>
    intro v r q h
    match q with
    | [] => simp [reachFuel]
    | qh :: qt =>
      rw [reachFuel]
      by_cases hf : failOn (List.take 50 (qh :: qt)) = true
      · rw [if_pos hf]
        simp
      · rw [if_neg hf]
        have hm := bfsScan_measure ((endNodes fwd edges).toFinset)
          (batchRows fwd edges (List.take 50 (qh :: qt))) v r []
          (fun s hs => List.mem_toFinset.mpr (batchRows_subset _ _ _ s hs))
        simp only [List.length_nil, Nat.add_zero] at hm
        have hrest : (List.drop 50 (qh :: qt)).length = (qh :: qt).length - 50 :=
          List.length_drop ..
        simp only [List.length_cons] at h hrest
        rcases hsc : bfsScan v r [] (batchRows fwd edges (List.take 50 (qh :: qt)))
          with ⟨v2, r2, nw⟩
        rw [hsc] at hm
        dsimp only at hm
        apply ih
        simp only [List.length_append, hrest]
        omega

theorem reachFuel_start_not_mem (fwd : Bool) (edges : List DepEdge)
    (failOn : List String → Bool) (start : String) (fuel : Nat) :
    ∀ (v r : Finset String) (q : List String), start ∈ v → start ∉ r →
      ∀ res, reachFuel fwd edges failOn fuel v r q = ReachRes.ok res →
        start ∉ res := by
  induction fuel with
  | zero => intro v r q _ _ res h; simp [reachFuel] at h
  | succ fuel ih =>
    intro v r q hv hr res h
    match q with
    | [] =>
      rw [reachFuel] at h
      cases h
      exact hr
    | qh :: qt =>
      rw [reachFuel] at h
      by_cases hf : failOn (List.take 50 (qh :: qt)) = true
      · rw [if_pos hf] at h
        cases h
      · rw [if_neg hf] at h
        have hst := bfsScan_start start
          (batchRows fwd edges (List.take 50 (qh :: qt))) v r [] hv hr
        exact ih _ _ _ hst.1 hst.2 res h

theorem reachSet_start_not_mem (fwd : Bool) (edges : List DepEdge)
    (failOn : List String → Bool) (start : String) :
    start ∉ reachSet fwd edges failOn start := by
  unfold reachSet
  rcases h : reachFuel fwd edges failOn (edges.length + 2) {start} ∅ [start] with
    res | _ | _
  · exact reachFuel_start_not_mem fwd edges failOn start _ {start} ∅ [start]
      (Finset.mem_singleton_self start) (Finset.not_mem_empty start) res h
  · exact Finset.not_mem_empty start
  · exact Finset.not_mem_empty start

theorem reachFuel_std_ne_outOfFuel (fwd : Bool) (edges : List DepEdge)
    (failOn : List String → Bool) (start : String) :
    reachFuel fwd edges failOn (edges.length + 2) {start} ∅ [start] ≠
      ReachRes.outOfFuel := by
  apply reachFuel_ne_outOfFuel
  have h1 : ((endNodes fwd edges).toFinset \ {start}).card ≤
      (endNodes fwd edges).toFinset.card :=
    Finset.card_le_card (Finset.sdiff_subset)
  have h2 : (endNodes fwd edges).toFinset.card ≤ (endNodes fwd edges).length :=
    (endNodes fwd edges).toFinset_card_le
  have h3 : (endNodes fwd edges).length = edges.length := by
    cases fwd <;> simp [endNodes]
  simp only [List.length_cons, List.length_nil]
  omega

/-- C6: for every edge set, including cyclic ones, and in both traversal
directions, the breadth-first traversal terminates (the fuel encoding of the
while-loop never runs out at the fuel the definitions use) and the reachable
set it returns never contains the start project, also under failed store
reads. -/
theorem C6_traversal_terminates_and_excludes_start
    (edges : List DepEdge) (failOn : List String → Bool) (start : String) :
    reachFuel false edges failOn (edges.length + 2) {start} ∅ [start] ≠
        ReachRes.outOfFuel ∧
    reachFuel true edges failOn (edges.length + 2) {start} ∅ [start] ≠
        ReachRes.outOfFuel ∧
    start ∉ getProjectDependentsF edges failOn start ∧
    start ∉ getProjectDependenciesF edges failOn start :=
  ⟨reachFuel_std_ne_outOfFuel false edges failOn start,
   reachFuel_std_ne_outOfFuel true edges failOn start,
   reachSet_start_not_mem false edges failOn start,
   reachSet_start_not_mem true edges failOn start⟩

/-! ## Lemmas about the hill-climbing optimizer -/

theorem foldl_scanStep_isSome (st : Store) (n : Nat) (total : Nat) :
    ∀ (l : List (List String × List String)) (b : Int × Option (List String × List String)),
      b.2.isSome → ((l.foldl (scanStep st n total) b).2).isSome := by
  intro l
  induction l with
  | nil => intro b hb; simpa using hb
  | cons c l ih =>
    intro b hb
    simp only [List.foldl_cons]
    apply ih
    unfold scanStep
    split
    · simp
    · exact hb

theorem foldl_scanStep_none_eq (st : Store) (n : Nat) (total : Nat) :
    ∀ (l : List (List String × List String)) (b : Int × Option (List String × List String)),
      (l.foldl (scanStep st n total) b).2 = none → l.foldl (scanStep st n total) b = b := by
  intro l
  induction l with
  | nil => intro b _; rfl
  | cons c l ih =>
    intro b hb
    simp only [List.foldl_cons] at hb ⊢
    have hstep : scanStep st n total b c = b := by
      unfold scanStep
      split
      · exfalso
        have := foldl_scanStep_isSome st n total l
          ((pairLoad st n c : Int) - (total : Int), some c) (by simp)
        rw [show (l.foldl (scanStep st n total)
            ((pairLoad st n c : Int) - (total : Int), some c)) =
            l.foldl (scanStep st n total) (scanStep st n total b c) from by
          unfold scanStep; split <;> simp_all] at this
        rw [hb] at this
        simp at this
      · rfl
    rw [hstep] at hb ⊢
    exact ih b hb

theorem foldl_scanStep_fst_le (st : Store) (n : Nat) (total : Nat) :
    ∀ (l : List (List String × List String)) (b : Int × Option (List String × List String)),
      (l.foldl (scanStep st n total) b).1 ≤ b.1 := by
  intro l
  induction l with
  | nil => intro b; exact le_refl _
  | cons c l ih =>
    intro b
    simp only [List.foldl_cons]
    refine le_trans (ih (scanStep st n total b c)) ?_
    unfold scanStep
    split
    · omega
    · exact le_refl _

theorem foldl_scanStep_le_delta (st : Store) (n : Nat) (total : Nat) :
    ∀ (l : List (List String × List String)) (b : Int × Option (List String × List String)),
      ∀ c ∈ l, (l.foldl (scanStep st n total) b).1 ≤ (pairLoad st n c : Int) - (total : Int) := by
  intro l
  induction l with
  | nil => intro b c hc; simp at hc
  | cons c0 l ih =>
    intro b c hc
    simp only [List.foldl_cons]
    rcases List.mem_cons.mp hc with rfl | hmem
    · refine le_trans (foldl_scanStep_fst_le st n total l _) ?_
      unfold scanStep
      split
      · exact le_refl _
      · omega
    · exact ih (scanStep st n total b c0) c hmem

theorem foldl_scanStep_some_delta (st : Store) (n : Nat) (total : Nat) :
    ∀ (l : List (List String × List String)) (b : Int × Option (List String × List String)),
      (∀ x, b.2 = some x → b.1 = (pairLoad st n x : Int) - (total : Int)) →
      ∀ c, (l.foldl (scanStep st n total) b).2 = some c →
        (l.foldl (scanStep st n total) b).1 = (pairLoad st n c : Int) - (total : Int) := by
  intro l
  induction l with
  | nil => intro b hb c hc; exact hb c hc
  | cons c0 l ih =>
    intro b hb c hc
    simp only [List.foldl_cons] at hc ⊢
    refine ih (scanStep st n total b c0) ?_ c hc
    intro x hx
    by_cases hcond : (pairLoad st n c0 : Int) - (total : Int) < b.1
    · have hstep : scanStep st n total b c0 =
          ((pairLoad st n c0 : Int) - (total : Int), some c0) := by
        unfold scanStep; rw [if_pos hcond]
      rw [hstep] at hx ⊢
      simp only [Option.some.injEq] at hx
      rw [← hx]
    · have hstep : scanStep st n total b c0 = b := by
        unfold scanStep; rw [if_neg hcond]
      rw [hstep] at hx ⊢
      exact hb x hx

theorem pickBest_some_delta (st : Store) (n : Nat) (total : Nat)
    (l : List (List String × List String)) (c : List String × List String)
    (h : (pickBest st n total l).2 = some c) :
    (pickBest st n total l).1 = (pairLoad st n c : Int) - (total : Int) :=
  foldl_scanStep_some_delta st n total l ((0 : Int), none) (by simp) c h

theorem pickBest_none_fst (st : Store) (n : Nat) (total : Nat)
    (l : List (List String × List String))
    (h : (pickBest st n total l).2 = none) : (pickBest st n total l).1 = 0 := by
  have := foldl_scanStep_none_eq st n total l ((0 : Int), none) h
  unfold pickBest
  rw [this]

theorem pickBest_fst_le (st : Store) (n : Nat) (total : Nat)
    (l : List (List String × List String)) (c : List String × List String)
    (hc : c ∈ l) : (pickBest st n total l).1 ≤ (pairLoad st n c : Int) - (total : Int) :=
  foldl_scanStep_le_delta st n total l ((0 : Int), none) c hc

theorem hillClimbFuel_some_le (st : Store) (n : Nat) :
    ∀ (fuel : Nat) (gA gB : List String) (r : List String × List String),
      hillClimbFuel st n fuel gA gB = some r →
      pairLoad st n r ≤ pairLoad st n (gA, gB) := by
  intro fuel
  induction fuel with
  | zero => intro gA gB r h; simp [hillClimbFuel] at h
  | succ fuel ih =>
    intro gA gB r h
    rw [hillClimbFuel] at h
    rcases hpb : pickBest st n (pairLoad st n (gA, gB)) (moveCandidates gA gB)
      with ⟨d, mo⟩
    rw [hpb] at h
    cases mo with
    | none =>
      simp only [Option.some.injEq] at h
      rw [← h]
    | some c =>
      dsimp only at h
      by_cases hd : d < 0
      · rw [if_pos hd] at h
        have h1 := ih c.1 c.2 r h
        have h2 := pickBest_some_delta st n (pairLoad st n (gA, gB))
          (moveCandidates gA gB) c (by rw [hpb])
        rw [hpb] at h2
        simp only at h2
        have hlt : (pairLoad st n c : Int) < (pairLoad st n (gA, gB) : Int) := by omega
        have hlt2 : pairLoad st n c < pairLoad st n (gA, gB) := by exact_mod_cast hlt
        calc pairLoad st n r ≤ pairLoad st n (c.1, c.2) := h1
          _ ≤ pairLoad st n (gA, gB) := le_of_lt hlt2
      · rw [if_neg hd] at h
        simp only [Option.some.injEq] at h
        rw [← h]

theorem hillClimbFuel_isSome (st : Store) (n : Nat) :
    ∀ (fuel : Nat) (gA gB : List String), pairLoad st n (gA, gB) < fuel →
      (hillClimbFuel st n fuel gA gB).isSome := by
  intro fuel
  induction fuel with
  | zero => intro gA gB h; omega
  | succ fuel ih =>
    intro gA gB h
    rw [hillClimbFuel]
    rcases hpb : pickBest st n (pairLoad st n (gA, gB)) (moveCandidates gA gB)
      with ⟨d, mo⟩
    cases mo with
    | none => simp
    | some c =>
      dsimp only
      by_cases hd : d < 0
      · rw [if_pos hd]
        have h2 := pickBest_some_delta st n (pairLoad st n (gA, gB))
          (moveCandidates gA gB) c (by rw [hpb])
        rw [hpb] at h2
        simp only at h2
        have hlt : (pairLoad st n c : Int) < (pairLoad st n (gA, gB) : Int) := by omega
        have hlt2 : pairLoad st n c < pairLoad st n (gA, gB) := by exact_mod_cast hlt
        have : pairLoad st n (c.1, c.2) < fuel := by
          have : pairLoad st n (c.1, c.2) = pairLoad st n c := by
            rfl
          omega
        exact ih c.1 c.2 this
      · rw [if_neg hd]
        simp

theorem hillClimbFuel_localOpt (st : Store) (n : Nat) :
    ∀ (fuel : Nat) (gA gB : List String) (r : List String × List String),
      hillClimbFuel st n fuel gA gB = some r →
      ∀ c ∈ moveCandidates r.1 r.2, pairLoad st n r ≤ pairLoad st n c := by
  intro fuel
  induction fuel with
  | zero => intro gA gB r h; simp [hillClimbFuel] at h
  | succ fuel ih =>
    intro gA gB r h
    rw [hillClimbFuel] at h
    rcases hpb : pickBest st n (pairLoad st n (gA, gB)) (moveCandidates gA gB)
      with ⟨d, mo⟩
    rw [hpb] at h
    cases mo with
    | none =>
      simp only [Option.some.injEq] at h
      subst h
      intro c hc
      have h0 := pickBest_none_fst st n (pairLoad st n (gA, gB))
        (moveCandidates gA gB) (by rw [hpb])
      have hle := pickBest_fst_le st n (pairLoad st n (gA, gB))
        (moveCandidates gA gB) c hc
      rw [hpb] at h0 hle
      simp only at h0 hle
      have : (pairLoad st n (gA, gB) : Int) ≤ (pairLoad st n c : Int) := by omega
      exact_mod_cast this
    | some c0 =>
      dsimp only at h
      by_cases hd : d < 0
      · rw [if_pos hd] at h
        exact ih c0.1 c0.2 r h
      · rw [if_neg hd] at h
        simp only [Option.some.injEq] at h
        subst h
        intro c hc
        have h2 := pickBest_some_delta st n (pairLoad st n (gA, gB))
          (moveCandidates gA gB) c0 (by rw [hpb])
        have hle := pickBest_fst_le st n (pairLoad st n (gA, gB))
          (moveCandidates gA gB) c hc
        rw [hpb] at h2 hle
        simp only at h2 hle
        have : (pairLoad st n (gA, gB) : Int) ≤ (pairLoad st n c : Int) := by omega
        exact_mod_cast this

/-- C2 (amended): for every store, window size and starting partition, the
hill climb terminates within initial-total + 1 iterations, its result never
has a larger total estimated load than the starting partition, and hillClimb
returns exactly that fixed point.  (As frozen, the claim compared the
returned groups of getSuggestedFileSplit, which additionally receive the
zero-dependent files in the first group; C2_counterexample refutes that
version.) -/
theorem C2_amended_hill_climb_terminates_and_never_worsens (st : Store) (n : Nat)
    (gA gB : List String) :
    ∃ r, hillClimbFuel st n (pairLoad st n (gA, gB) + 1) gA gB = some r ∧
      pairLoad st n r ≤ pairLoad st n (gA, gB) ∧ hillClimb st n gA gB = r := by
  have hs := hillClimbFuel_isSome st n (pairLoad st n (gA, gB) + 1) gA gB
    (Nat.lt_succ_self _)
  rcases ho : hillClimbFuel st n (pairLoad st n (gA, gB) + 1) gA gB with _ | r
  · rw [ho] at hs; simp at hs
  · exact ⟨r, rfl, hillClimbFuel_some_le st n _ gA gB r ho, by
      unfold hillClimb; rw [ho]; rfl⟩

/-- C2 (counterexample to the claim as frozen): a run where the total
estimated load of the two returned groups (1) strictly exceeds the total of
the initial random split (0), because the untouched-in-search file without
dependents joins the first group after the search and raises its touch
count. -/
theorem C2_counterexample :
    getSuggestedFileSplit stSplit ["g.ts", "f.ts"] 100 (fun _ => true) =
      (["g.ts", "f.ts"], []) ∧
    pairLoad stSplit 100
      (initSplit (["g.ts", "f.ts"].filter
        (fun f => !(decide (directDepProjects stSplit f = ∅)))) (fun _ => true)) = 0 ∧
    pairLoad stSplit 100 (["g.ts", "f.ts"], []) = 1 := by
  refine ⟨by decide, by decide, by decide⟩

theorem hillClimbFuel_hillClimb (st : Store) (n : Nat) (gA gB : List String) :
    hillClimbFuel st n (pairLoad st n (gA, gB) + 1) gA gB =
      some (hillClimb st n gA gB) := by
  have hs := hillClimbFuel_isSome st n (pairLoad st n (gA, gB) + 1) gA gB
    (Nat.lt_succ_self _)
  rcases ho : hillClimbFuel st n (pairLoad st n (gA, gB) + 1) gA gB with _ | r
  · rw [ho] at hs; simp at hs
  · unfold hillClimb
    rw [ho]
    rfl

/-- C3 (amended): the split optimizer returns the hill-climb fixed point with
the zero-dependent files appended to the first group, and that fixed point is
a local optimum of the search groups: no single-file move between the two
hill-climb groups (which exclude the zero-dependent files) strictly decreases
the summed estimated load.  (As frozen, the claim asserted this for the
returned groups themselves; C3_counterexample refutes that version.) -/
theorem C3_amended_split_local_optimum (st : Store) (files : List String)
    (n : Nat) (coins : Nat → Bool)
    (hwd : files.filter (fun f => !(decide (directDepProjects st f = ∅))) ≠ []) :
    getSuggestedFileSplit st files n coins =
      ((splitSearchGroups st files n coins).1 ++
        files.filter (fun f => decide (directDepProjects st f = ∅)),
       (splitSearchGroups st files n coins).2) ∧
    ∀ c ∈ moveCandidates (splitSearchGroups st files n coins).1
        (splitSearchGroups st files n coins).2,
      pairLoad st n (splitSearchGroups st files n coins) ≤ pairLoad st n c := by
  constructor
  · have hne : files ≠ [] := by
      intro hc
      subst hc
      simp at hwd
    unfold getSuggestedFileSplit
    rw [if_neg (by simpa using hne)]
    rw [if_neg (by simpa using hwd)]
    rfl
  · set a := (initSplit (files.filter
      (fun f => !(decide (directDepProjects st f = ∅)))) coins).1 with ha
    set b := (initSplit (files.filter
      (fun f => !(decide (directDepProjects st f = ∅)))) coins).2 with hb
    have hgroups : splitSearchGroups st files n coins = hillClimb st n a b := rfl
    rw [hgroups]
    exact hillClimbFuel_localOpt st n (pairLoad st n (a, b) + 1) a b
      (hillClimb st n a b) (hillClimbFuel_hillClimb st n a b)

/-- C3 (counterexample to the claim as frozen): a run of the optimizer whose
returned partition admits a strictly improving single-file move: moving the
dependent-free file f.ts from the first returned group to the second drops
the summed estimated load from 1 to 0. -/
theorem C3_counterexample :
    getSuggestedFileSplit stSplit ["g.ts", "f.ts"] 100 (fun _ => true) =
      (["g.ts", "f.ts"], []) ∧
    pairLoad stSplit 100
        ((["g.ts", "f.ts"]).filter (fun g => g != "f.ts"), [] ++ ["f.ts"]) <
      pairLoad stSplit 100 (["g.ts", "f.ts"], []) :=
  ⟨by decide, by decide⟩

/-- C3 witness: the amended local-optimality theorem applied at a concrete
store, file list and coin stream. -/
theorem C3_amended_split_local_optimum_witness :
    (["g.ts", "f.ts"].filter
      (fun f => !(decide (directDepProjects stSplit f = ∅))) ≠ []) ∧
    ∀ c ∈ moveCandidates
        (splitSearchGroups stSplit ["g.ts", "f.ts"] 100 (fun _ => true)).1
        (splitSearchGroups stSplit ["g.ts", "f.ts"] 100 (fun _ => true)).2,
      pairLoad stSplit 100
          (splitSearchGroups stSplit ["g.ts", "f.ts"] 100 (fun _ => true)) ≤
        pairLoad stSplit 100 c :=
  ⟨by decide,
   (C3_amended_split_local_optimum stSplit ["g.ts", "f.ts"] 100 (fun _ => true)
     (by decide)).2⟩

/-- C7: every input file with no dependent project lands in the first
returned group, and when no input file has dependents the optimizer returns
the whole input list as the first group with an empty second group. -/
theorem C7_files_without_dependents_first_group (st : Store) (files : List String)
    (n : Nat) (coins : Nat → Bool) :
    ((∀ f ∈ files, directDepProjects st f = ∅) →
      getSuggestedFileSplit st files n coins = (files, [])) ∧
    ∀ f ∈ files, directDepProjects st f = ∅ →
      f ∈ (getSuggestedFileSplit st files n coins).1 := by
  constructor
  · intro hall
    unfold getSuggestedFileSplit
    by_cases hfe : files.isEmpty
    · rw [if_pos hfe]
      have : files = [] := by simpa using hfe
      rw [this]
    · rw [if_neg hfe]
      have hflt : files.filter (fun f => !(decide (directDepProjects st f = ∅))) = [] := by
        apply List.filter_eq_nil_iff.mpr
        intro f hf
        simp [hall f hf]
      rw [if_pos (by simp [hflt])]
  · intro f hf hdep
    unfold getSuggestedFileSplit
    by_cases hfe : files.isEmpty
    · exfalso
      have : files = [] := by simpa using hfe
      rw [this] at hf
      simp at hf
    · rw [if_neg hfe]
      by_cases hwd : (files.filter
          (fun g => !(decide (directDepProjects st g = ∅)))).isEmpty
      · rw [if_pos hwd]
        exact hf
      · rw [if_neg hwd]
        simp only
        apply List.mem_append.mpr
        right
        exact List.mem_filter.mpr ⟨hf, by simp [hdep]⟩

/-- C7 witness: the theorem applied at a concrete store and file list. -/
theorem C7_files_without_dependents_first_group_witness :
    (∀ f ∈ ["f.ts"], directDepProjects stSplit f = ∅) ∧
    getSuggestedFileSplit stSplit ["f.ts"] 100 (fun _ => true) = (["f.ts"], []) ∧
    "f.ts" ∈ (getSuggestedFileSplit stSplit ["f.ts"] 100 (fun _ => true)).1 :=
  ⟨by decide,
   (C7_files_without_dependents_first_group stSplit ["f.ts"] 100
     (fun _ => true)).1 (by decide),
   (C7_files_without_dependents_first_group stSplit ["f.ts"] 100
     (fun _ => true)).2 "f.ts" (by decide) (by decide)⟩

/-- C4: getEstimatedLoad returns exactly touch count times the cardinality of
the dependent-projects union, is 0 on the empty file list, and is 0 whenever
no listed file has a dependent project, regardless of touch count. -/
theorem C4_estimated_load_formula (st : Store) (files : List String) (n : Nat) :
    getEstimatedLoad st files n =
      getFilesTouchedCount st files n * (allDependents st files).card ∧
    getEstimatedLoad st [] n = 0 ∧
    (directDependents st files = ∅ → getEstimatedLoad st files n = 0) := by
  refine ⟨?_, by simp [getEstimatedLoad, getEstimatedLoadF], ?_⟩
  · unfold getEstimatedLoad getEstimatedLoadF
    by_cases h1 : files.isEmpty
    · rw [if_pos h1]
      have ht : getFilesTouchedCount st files n = 0 := by
        unfold getFilesTouchedCount
        rw [if_pos h1]
      rw [ht, Nat.zero_mul]
    · rw [if_neg h1]
      by_cases h2 : directDependents st files = ∅
      · rw [if_pos h2]
        have hall : (allDependents st files).card = 0 := by
          unfold allDependents allDependentsF
          rw [h2]
          simp
        rw [hall, Nat.mul_zero]
      · rw [if_neg h2]
        rfl
  · intro h
    unfold getEstimatedLoad getEstimatedLoadF
    by_cases h1 : files.isEmpty
    · rw [if_pos h1]
    · rw [if_neg h1, if_pos h]

/-- C4 witness: the formula evaluated at a concrete store, including the
zero case for a file set with a nonzero touch count and no dependents. -/
theorem C4_estimated_load_formula_witness :
    getEstimatedLoad stSplit ["g.ts", "f.ts"] 100 =
      getFilesTouchedCount stSplit ["g.ts", "f.ts"] 100 *
        (allDependents stSplit ["g.ts", "f.ts"]).card ∧
    directDependents stSplit ["f.ts"] = ∅ ∧
    getFilesTouchedCount stSplit ["f.ts"] 100 = 1 ∧
    getEstimatedLoad stSplit ["f.ts"] 100 = 0 :=
  ⟨(C4_estimated_load_formula stSplit ["g.ts", "f.ts"] 100).1, by decide,
   by decide, (C4_estimated_load_formula stSplit ["f.ts"] 100).2.2 (by decide)⟩

theorem getProjectDependentsF_allFail (edges : List DepEdge) (start : String) :
    getProjectDependentsF edges (fun _ => true) start = ∅ := by
  unfold getProjectDependentsF reachSet
  rw [show edges.length + 2 = (edges.length + 1) + 1 from rfl, reachFuel]
  simp

/-- C9: a failing store read inside the transitive-dependents lookup degrades
to the empty set instead of raising, and getEstimatedLoad still produces a
plain numeric result (with the transitive part of the union empty), so the
failure is never propagated as a hard error. -/
theorem C9_failed_read_degrades (st : Store) (files : List String) (n : Nat)
    (start : String) :
    getProjectDependentsF st.projectDeps (fun _ => true) start = ∅ ∧
    getEstimatedLoadF st (fun _ => true) files n =
      (if files.isEmpty then 0
       else if directDependents st files = ∅ then 0
       else getFilesTouchedCount st files n * (directDependents st files).card) := by
  refine ⟨getProjectDependentsF_allFail st.projectDeps start, ?_⟩
  unfold getEstimatedLoadF
  by_cases h1 : files.isEmpty
  · rw [if_pos h1, if_pos h1]
  · rw [if_neg h1, if_neg h1]
    by_cases h2 : directDependents st files = ∅
    · rw [if_pos h2, if_pos h2]
    · rw [if_neg h2, if_neg h2]
      have hall : allDependentsF st (fun _ => true) files = directDependents st files := by
        unfold allDependentsF
        have hb : (directDependents st files).biUnion
            (fun p => getProjectDependentsF st.projectDeps (fun _ => true) p) = ∅ := by
          apply Finset.eq_empty_iff_forall_not_mem.mpr
          intro x hx
          rcases Finset.mem_biUnion.mp hx with ⟨p, _, hxp⟩
          rw [getProjectDependentsF_allFail st.projectDeps p] at hxp
          exact Finset.not_mem_empty x hxp
        rw [hb, Finset.union_empty]
      rw [hall]

/-! ## Monotonicity of the estimated load -/

theorem getFilesTouchedCount_mono (st : Store) (n : Nat) (S T : List String)
    (hsub : ∀ f ∈ S, f ∈ T) :
    getFilesTouchedCount st S n ≤ getFilesTouchedCount st T n := by
  by_cases hS : S.isEmpty
  · unfold getFilesTouchedCount
    rw [if_pos hS]
    exact Nat.zero_le _
  · have hT : ¬T.isEmpty := by
      rcases S with _ | ⟨f, S⟩
      · simp at hS
      · have : f ∈ T := hsub f (List.mem_cons_self f S)
        intro hc
        rw [List.isEmpty_iff.mp hc] at this
        simp at this
    unfold getFilesTouchedCount
    rw [if_neg hS, if_neg hT]
    have hsubset : ((st.touchedFiles.filter
        (fun tf => decide (tf.1 ∈ windowIds st n ∧ tf.2 ∈ S))).map
          Prod.fst).toFinset ⊆
        ((st.touchedFiles.filter
        (fun tf => decide (tf.1 ∈ windowIds st n ∧ tf.2 ∈ T))).map
          Prod.fst).toFinset := by
      intro x hx
      simp only [List.mem_toFinset, List.mem_map, List.mem_filter,
        decide_eq_true_eq] at hx ⊢
      rcases hx with ⟨tf, ⟨htf, hw, hmem⟩, hfst⟩
      exact ⟨tf, ⟨htf, hw, hsub _ hmem⟩, hfst⟩
    calc (((st.touchedFiles.filter
          (fun tf => decide (tf.1 ∈ windowIds st n ∧ tf.2 ∈ S))).map
            Prod.fst).dedup).length
        = ((st.touchedFiles.filter
          (fun tf => decide (tf.1 ∈ windowIds st n ∧ tf.2 ∈ S))).map
            Prod.fst).toFinset.card := (List.card_toFinset _).symm
      _ ≤ ((st.touchedFiles.filter
          (fun tf => decide (tf.1 ∈ windowIds st n ∧ tf.2 ∈ T))).map
            Prod.fst).toFinset.card := Finset.card_le_card hsubset
      _ = (((st.touchedFiles.filter
          (fun tf => decide (tf.1 ∈ windowIds st n ∧ tf.2 ∈ T))).map
            Prod.fst).dedup).length := List.card_toFinset _

theorem directDependents_mem (st : Store) (S : List String) (p : String) :
    p ∈ directDependents st S ↔ ∃ f ∈ S, p ∈ directDepProjects st f := by
  induction S with
  | nil => simp [directDependents]
  | cons f S ih =>
    simp only [directDependents, List.foldr_cons, Finset.mem_union]
    rw [show S.foldr (fun f acc => directDepProjects st f ∪ acc) ∅ =
      directDependents st S from rfl, ih]
    simp

theorem directDependents_mono (st : Store) (S T : List String)
    (hsub : ∀ f ∈ S, f ∈ T) :
    directDependents st S ⊆ directDependents st T := by
  intro p hp
  rcases (directDependents_mem st S p).mp hp with ⟨f, hf, hpf⟩
  exact (directDependents_mem st T p).mpr ⟨f, hsub f hf, hpf⟩

theorem allDependents_mono (st : Store) (S T : List String)
    (hsub : ∀ f ∈ S, f ∈ T) :
    allDependents st S ⊆ allDependents st T := by
  unfold allDependents allDependentsF
  exact Finset.union_subset_union (directDependents_mono st S T hsub)
    (Finset.biUnion_subset_biUnion_of_subset_left _
      (directDependents_mono st S T hsub))

/-- C10: over the same store and window size, getEstimatedLoad is monotone
non-decreasing in the file set: both the distinct-commit touch count and the
dependent-projects union only grow when files are added. -/
theorem C10_estimated_load_monotone (st : Store) (n : Nat) (S T : List String)
    (hsub : ∀ f ∈ S, f ∈ T) :
    getEstimatedLoad st S n ≤ getEstimatedLoad st T n := by
  by_cases h1 : S.isEmpty
  · unfold getEstimatedLoad getEstimatedLoadF
    rw [if_pos h1]
    exact Nat.zero_le _
  · by_cases h2 : directDependents st S = ∅
    · unfold getEstimatedLoad getEstimatedLoadF
      rw [if_neg h1, if_pos h2]
      exact Nat.zero_le _
    · have hT1 : ¬T.isEmpty := by
        rcases S with _ | ⟨f, S⟩
        · simp at h1
        · have : f ∈ T := hsub f (List.mem_cons_self f S)
          intro hc
          rw [List.isEmpty_iff.mp hc] at this
          simp at this
      have hT2 : directDependents st T ≠ ∅ := by
        rcases Finset.nonempty_iff_ne_empty.mpr h2 with ⟨p, hp⟩
        exact Finset.nonempty_iff_ne_empty.mp ⟨p, directDependents_mono st S T hsub hp⟩
      unfold getEstimatedLoad getEstimatedLoadF
      rw [if_neg h1, if_neg h2, if_neg hT1, if_neg hT2]
      exact Nat.mul_le_mul (getFilesTouchedCount_mono st n S T hsub)
        (Finset.card_le_card (allDependents_mono st S T hsub))

/-- C10 witness: the monotonicity theorem applied at a concrete store and a
concrete pair of nested file lists. -/
theorem C10_estimated_load_monotone_witness :
    (∀ f ∈ ["f.ts"], f ∈ ["g.ts", "f.ts"]) ∧
    getEstimatedLoad stSplit ["f.ts"] 100 ≤
      getEstimatedLoad stSplit ["g.ts", "f.ts"] 100 :=
  ⟨by decide, C10_estimated_load_monotone stSplit 100 ["f.ts"] ["g.ts", "f.ts"]
    (by decide)⟩

/-! ## Lemmas about the windowed metrics -/

theorem touchedRowsOf_fst_mem_window (st : Store) (n : Nat) :
    ∀ r ∈ touchedRowsOf st n, r.1 ∈ windowIds st n := by
  intro r hr
  unfold touchedRowsOf at hr
  rw [List.mem_dedup] at hr
  rcases List.mem_flatMap.mp hr with ⟨tf, htf, hmap⟩
  rcases List.mem_map.mp hmap with ⟨pf, _, rfl⟩
  have h2 := (List.mem_filter.mp htf).2
  simpa using h2

theorem touchedCommitIds_mem_window (st : Store) (n : Nat) (cid : Nat)
    (h : cid ∈ touchedCommitIds st n) : cid ∈ windowIds st n := by
  unfold touchedCommitIds at h
  rw [List.mem_dedup] at h
  rcases List.mem_map.mp h with ⟨r, hr, rfl⟩
  exact touchedRowsOf_fst_mem_window st n r hr

theorem affectedSet_empty_of_not_touched (st : Store) (n : Nat) (cid : Nat)
    (h : cid ∉ touchedCommitIds st n) : affectedSetOfCommit st n cid = ∅ := by
  unfold affectedSetOfCommit touchedProjectsOfCommit
  have hnil : (touchedRowsOf st n).filter (fun r => decide (r.1 = cid)) = [] := by
    apply List.filter_eq_nil_iff.mpr
    intro r hr
    simp only [decide_eq_true_eq]
    intro hc
    apply h
    unfold touchedCommitIds
    rw [List.mem_dedup]
    exact List.mem_map.mpr ⟨r, hr, hc⟩
  rw [hnil]
  rfl

theorem touchCountOf_eq_zero_of_not_touched (st : Store) (n : Nat) (p : String)
    (h : p ∉ projectsToCompute st n) : touchCountOf st n p = 0 := by
  unfold touchCountOf
  rw [List.length_eq_zero]
  apply List.filter_eq_nil_iff.mpr
  intro r hr
  simp only [decide_eq_true_eq]
  intro hc
  apply h
  unfold projectsToCompute
  rw [List.mem_dedup]
  exact List.mem_map.mpr ⟨r, hr, hc⟩

theorem affectedCountOf_eq_countP (st : Store) (n : Nat) (p : String) :
    affectedCountOf st n p = (touchedCommitIds st n).countP
      (fun cid => decide (p ∈ affectedSetOfCommit st n cid)) := by
  unfold affectedCountOf
  suffices h : ∀ (l : List Nat) (a : Nat),
      l.foldl (fun acc cid =>
        if p ∈ affectedSetOfCommit st n cid then acc + 1 else acc) a =
      a + l.countP (fun cid => decide (p ∈ affectedSetOfCommit st n cid)) by
    simpa using h (touchedCommitIds st n) 0
  intro l
  induction l with
  | nil => intro a; simp
  | cons cid l ih =>
    intro a
    simp only [List.foldl_cons, List.countP_cons]
    by_cases h : p ∈ affectedSetOfCommit st n cid
    · rw [if_pos h, ih]
      simp [h]
      omega
    · rw [if_neg h, ih]
      simp [h]

theorem affectedCountP_window_eq (st : Store) (n : Nat) (p : String) :
    (touchedCommitIds st n).countP
      (fun cid => decide (p ∈ affectedSetOfCommit st n cid)) =
    (windowIds st n).dedup.countP
      (fun cid => decide (p ∈ affectedSetOfCommit st n cid)) := by
  have h1 : (touchedCommitIds st n).Nodup := List.nodup_dedup _
  have h2 : ((windowIds st n).dedup).Nodup := List.nodup_dedup _
  rw [List.countP_eq_length_filter, List.countP_eq_length_filter]
  rw [← List.toFinset_card_of_nodup (h1.filter _),
    ← List.toFinset_card_of_nodup (h2.filter _)]
  congr 1
  ext cid
  simp only [List.mem_toFinset, List.mem_filter, decide_eq_true_eq, List.mem_dedup]
  constructor
  · rintro ⟨htc, hp⟩
    exact ⟨touchedCommitIds_mem_window st n cid htc, hp⟩
  · rintro ⟨_, hp⟩
    refine ⟨?_, hp⟩
    by_contra hnot
    rw [affectedSet_empty_of_not_touched st n cid hnot] at hp
    exact Finset.not_mem_empty _ hp

/-- C5: in the metrics result, the affected count of every project equals the
number of distinct window commits whose affected set (the per-commit union of
the touched projects and their transitive dependents) contains the project,
so each commit contributes exactly one even when the project is reachable
from several of that commit's touched projects. -/
theorem C5_affected_count_per_commit_union (st : Store) (n : Nat)
    (m : ProjectMetrics) (hm : m ∈ getAllProjectsMetrics st n) :
    m.affected_count = (windowIds st n).dedup.countP
      (fun cid => decide (m.name ∈ affectedSetOfCommit st n cid)) := by
  unfold getAllProjectsMetrics at hm
  by_cases hw : (windowIds st n).isEmpty
  · rw [if_pos hw] at hm
    rcases List.mem_map.mp hm with ⟨p, _, rfl⟩
    rw [List.isEmpty_iff.mp hw]
    rfl
  · rw [if_neg hw] at hm
    rcases List.mem_map.mp hm with ⟨p, _, rfl⟩
    show affectedCountOf st n p = _
    rw [affectedCountOf_eq_countP, affectedCountP_window_eq]

/-- C5 witness: the affected-count characterization applied to a concrete
metrics row. -/
theorem C5_affected_count_per_commit_union_witness :
    (⟨"app", 1, some 0, 0, 1⟩ : ProjectMetrics) ∈ getAllProjectsMetrics stC1 100 ∧
    (⟨"app", 1, some 0, 0, 1⟩ : ProjectMetrics).affected_count =
      (windowIds stC1 100).dedup.countP
        (fun cid => decide
          ((⟨"app", 1, some 0, 0, 1⟩ : ProjectMetrics).name ∈
            affectedSetOfCommit stC1 100 cid)) :=
  ⟨by decide, C5_affected_count_per_commit_union stC1 100 ⟨"app", 1, some 0, 0, 1⟩
    (by decide)⟩

/-- C1 (amended): every project of the store appears in the metrics result
(in name order); when the window is nonempty, a project touched in the window
reports dependent_count equal to the size of its transitive-dependents set,
while an untouched project reports dependent_count 0 - not its graph-wide
dependent count - together with zero touched_count and load.  (As frozen, the
claim asserted the graph-wide dependent count for every project;
C1_counterexample refutes that for untouched projects.) -/
theorem C1_amended_metrics_dependent_count (st : Store) (n : Nat) :
    ((getAllProjectsMetrics st n).map (fun m => m.name) = sortNameAsc st.projects) ∧
    ∀ m ∈ getAllProjectsMetrics st n, ¬(windowIds st n).isEmpty →
      (m.name ∈ projectsToCompute st n →
        m.dependent_count = some (getProjectDependents st m.name).card) ∧
      (m.name ∉ projectsToCompute st n →
        m.dependent_count = some 0 ∧ m.touched_count = 0 ∧ m.load = 0) := by
  constructor
  · unfold getAllProjectsMetrics
    by_cases hw : (windowIds st n).isEmpty
    · rw [if_pos hw, List.map_map]
      show List.map (fun p : String => p) (sortNameAsc st.projects) =
        sortNameAsc st.projects
      simp
    · rw [if_neg hw, List.map_map]
      show List.map (fun p : String => p) (sortNameAsc st.projects) =
        sortNameAsc st.projects
      simp
  · intro m hm hw
    unfold getAllProjectsMetrics at hm
    rw [if_neg hw] at hm
    rcases List.mem_map.mp hm with ⟨p, _, rfl⟩
    constructor
    · intro htouched
      show some (depCountOf st n p) = _
      unfold depCountOf
      rw [if_pos htouched]
    · intro huntouched
      refine ⟨?_, ?_, ?_⟩
      · show some (depCountOf st n p) = some 0
        unfold depCountOf
        rw [if_neg huntouched]
      · exact touchCountOf_eq_zero_of_not_touched st n p huntouched
      · show touchCountOf st n p * depCountOf st n p = 0
        rw [touchCountOf_eq_zero_of_not_touched st n p huntouched, Nat.zero_mul]

/-- C1 (counterexample to the claim as frozen): in stC1 the window commit
touches only a file of app, so core is untouched; the code reports
dependent_count 0 for core although the transitive-dependents set of core has
cardinality 1. -/
theorem C1_counterexample :
    (⟨"core", 0, some 0, 0, 0⟩ : ProjectMetrics) ∈ getAllProjectsMetrics stC1 100 ∧
    (getProjectDependents stC1 "core").card = 1 := by
  exact ⟨by decide, by decide⟩

/-- C1 witness: the amended theorem applied at a concrete store, on both a
touched project (app) and an untouched one (core). -/
theorem C1_amended_metrics_dependent_count_witness :
    ((getAllProjectsMetrics stC1 100).map (fun m => m.name) =
      sortNameAsc stC1.projects) ∧
    (⟨"app", 1, some 0, 0, 1⟩ : ProjectMetrics) ∈ getAllProjectsMetrics stC1 100 ∧
    (⟨"core", 0, some 0, 0, 0⟩ : ProjectMetrics) ∈ getAllProjectsMetrics stC1 100 ∧
    ¬(windowIds stC1 100).isEmpty ∧
    (⟨"app", 1, some 0, 0, 1⟩ : ProjectMetrics).dependent_count =
      some (getProjectDependents stC1 "app").card ∧
    ((⟨"core", 0, some 0, 0, 0⟩ : ProjectMetrics).dependent_count = some 0 ∧
      (⟨"core", 0, some 0, 0, 0⟩ : ProjectMetrics).touched_count = 0 ∧
      (⟨"core", 0, some 0, 0, 0⟩ : ProjectMetrics).load = 0) :=
  ⟨(C1_amended_metrics_dependent_count stC1 100).1,
   by decide, by decide, by decide,
   ((C1_amended_metrics_dependent_count stC1 100).2 ⟨"app", 1, some 0, 0, 1⟩
     (by decide) (by decide)).1 (by decide),
   ((C1_amended_metrics_dependent_count stC1 100).2 ⟨"core", 0, some 0, 0, 0⟩
     (by decide) (by decide)).2 (by decide)⟩

/-! ## Lemmas about the commit ingestor -/

theorem ingestGo_saved_nonempty :
    ∀ (lines : List String) (cur : Option GitCommit) (buf : List (String × String))
      (saved : List (GitCommit × List (String × String))),
      (∀ e ∈ saved, e.2 ≠ []) →
      ∀ e ∈ ingestGo lines cur buf saved, e.2 ≠ [] := by
  intro lines
  induction lines with
  | nil =>
    intro cur buf saved hsaved e he
    rw [ingestGo.eq_def] at he
    cases cur with
    | some c =>
      dsimp only at he
      by_cases hbe : buf.isEmpty
      · rw [if_pos hbe] at he
        exact hsaved e he
      · rw [if_neg hbe] at he
        rcases List.mem_append.mp he with h | h
        · exact hsaved e h
        · simp only [List.mem_singleton] at h
          rw [h]
          simpa using hbe
    | none =>
      dsimp only at he
      exact hsaved e he
  | cons line rest ih =>
    intro cur buf saved hsaved e he
    rw [ingestGo.eq_def] at he
    dsimp only at he
    by_cases hpipe : line.toList.contains '|' = true
    · rw [if_pos hpipe] at he
      cases cur with
      | some c =>
        dsimp only at he
        by_cases hbe : buf.isEmpty
        · rw [if_pos hbe] at he
          exact ih _ _ _ hsaved e he
        · rw [if_neg hbe] at he
          refine ih _ _ _ ?_ e he
          intro e2 he2
          rcases List.mem_append.mp he2 with h | h
          · exact hsaved e2 h
          · simp only [List.mem_singleton] at h
            rw [h]
            simpa using hbe
      | none =>
        dsimp only at he
        exact ih _ _ _ hsaved e he
    · rw [if_neg hpipe] at he
      by_cases hch : (cur.isSome && isChangeLine line) = true
      · rw [if_pos hch] at he
        exact ih _ _ _ hsaved e he
      · rw [if_neg hch] at he
        exact ih _ _ _ hsaved e he

theorem foldl_insertIgnore_mem :
    ∀ (l : List (GitCommit × List (String × String))) (acc : List GitCommit)
      (x : GitCommit),
      x ∈ l.foldl (fun acc e =>
        if acc.any (fun c => c.hash == e.1.hash) then acc else acc ++ [e.1]) acc →
      x ∈ acc ∨ ∃ e ∈ l, e.1 = x := by
  intro l
  induction l with
  | nil => intro acc x hx; exact Or.inl hx
  | cons e l ih =>
    intro acc x hx
    simp only [List.foldl_cons] at hx
    rcases ih _ x hx with h | ⟨e2, he2, hx2⟩
    · by_cases hdup : acc.any (fun c => c.hash == e.1.hash) = true
      · rw [if_pos hdup] at h
        exact Or.inl h
      · rw [if_neg hdup] at h
        rcases List.mem_append.mp h with h2 | h2
        · exact Or.inl h2
        · simp only [List.mem_singleton] at h2
          exact Or.inr ⟨e, List.mem_cons_self e l, h2.symm⟩
    · exact Or.inr ⟨e2, List.mem_cons_of_mem _ he2, hx2⟩

/-- C8 (amended): every commit recorded in git_commits by the ingestor comes
from a flushed accumulator entry with at least one parsed change line; a
commit whose header is followed by zero change lines is never recorded.  (As
frozen, the claim asserted that a zero-change commit still gets a git_commits
row; C8_counterexample refutes that.) -/
theorem C8_amended_zero_change_commit_dropped (s : String) (c : GitCommit)
    (hc : c ∈ gitCommitsTable s) :
    ∃ e ∈ ingest s, e.1 = c ∧ e.2 ≠ [] := by
  rcases foldl_insertIgnore_mem (ingest s) [] c hc with h | ⟨e, he, hec⟩
  · simp at h
  · exact ⟨e, he, hec, ingestGo_saved_nonempty _ none [] [] (by simp) e he⟩

/-- C8 (counterexample to the claim as frozen): a log consisting of exactly
one well-formed commit header with zero change lines parses as a commit (the
header line holds the pipe separators) but leaves git_commits empty. -/
theorem C8_counterexample :
    "h1|alice|2024-01-01|msg".toList.contains '|' = true ∧
    parseHeader "h1|alice|2024-01-01|msg" = ⟨"h1", "alice", "2024-01-01", "msg"⟩ ∧
    gitCommitsTable "h1|alice|2024-01-01|msg" = [] :=
  ⟨by decide, by decide, by decide⟩

/-- C8 witness: the amended theorem applied to a log whose single commit has
one change line and is therefore recorded. -/
theorem C8_amended_zero_change_commit_dropped_witness :
    (⟨"h1", "alice", "2024-01-01", "msg"⟩ : GitCommit) ∈
      gitCommitsTable "h1|alice|2024-01-01|msg\nA\tf.ts" ∧
    ∃ e ∈ ingest "h1|alice|2024-01-01|msg\nA\tf.ts",
      e.1 = (⟨"h1", "alice", "2024-01-01", "msg"⟩ : GitCommit) ∧ e.2 ≠ [] :=
  ⟨by decide, C8_amended_zero_change_commit_dropped _ _ (by decide)⟩

end NxTools
